import Mathlib

/-!
Verification of the openpi robot-client core: the action-chunk broker
(`openpi_client/action_chunk_broker.py`), the frame translator and safety
clamp (`mkrobot/hardware/mk_driver.py`), the chunk-boundary interpolator
(`mkrobot/env.py`), and the command paths of `mkrobot/mk_controller.py`.

Machine floats are modelled by rationals: every operation the claims touch
(multiplication by a sign in {-1, 1}, clipping, linear interpolation with
denominator `steps + 1`) is exact, so `ℚ` is a faithful carrier.
Numpy arrays are modelled as nested lists (`NDArr`); Python dicts of
heterogeneous values as association lists (`PyDict`).
-/

namespace OpenPI

/-- A numpy ndarray: its shape and its row-major flat data (the dtype
payload is modelled by `Int`; a 0-d array has shape `[]` and one datum). -/
structure NDArr where
  shape : List Nat
  data : List Int
  deriving DecidableEq, Repr

/-- `x.ndim`: the number of dimensions. -/
def NDArr.ndim (a : NDArr) : Nat := a.shape.length

/-- `x.shape[0]`: the leading dimension (arrays the broker slices always
have at least one dimension). -/
def NDArr.shape0 (a : NDArr) : Nat := a.shape.headD 0

/-- The flat length of one leading-dimension slice of `a`. -/
def NDArr.stride (a : NDArr) : Nat := (a.shape.drop 1).prod

/-- `x[i, ...]`: drop the leading dimension at index `i`.  Total in the
model (out-of-range indexing, which raises in numpy, yields an empty
slice); the in-bounds theorems below never rely on that junk value. -/
def NDArr.index (a : NDArr) (i : Nat) : NDArr :=
  ⟨a.shape.drop 1, (a.data.drop (i * a.stride)).take a.stride⟩

/-- `x[None, ...]`: synthesize a leading dimension of length 1. -/
def NDArr.expandDim (a : NDArr) : NDArr := ⟨1 :: a.shape, a.data⟩

/-- A Python value stored in a policy-result dict: a numpy array, a bool
(e.g. a flag field), or some other non-array Python object (opaque). -/
inductive PyVal where
  | nd (a : NDArr)
  | bool (b : Bool)
  | py (v : Int)
  deriving DecidableEq, Repr

/-- A flat Python dict, as an association list (keys are unique in the
dicts the policy returns; `lookup` models `dict.get`). -/
abbrev PyDict := List (String × PyVal)

/-- Python's substring test `pat in s` (as applied to the stringified
path of a flat dict, whose key appears verbatim in `str(path)`). -/
def containsSub (s pat : String) : Bool :=
  (List.range (s.toList.length + 1)).any
    (fun i => pat.toList.isPrefixOf (s.toList.drop i))

/-- `ensure_chunk_dim` (action_chunk_broker.py, lines 97-100): a 1-D
ndarray under a key containing "actions" gets a synthesized leading
chunk dimension `x[None, ...]`; everything else is unchanged. -/
def ensure_chunk_dim (path : String) (x : PyVal) : PyVal :=
  match x with
  | .nd a => if a.ndim == 1 && containsSub path "actions" then .nd a.expandDim else .nd a
  | v => v

/-- The dict the broker caches: the raw policy result after
`tree.map_structure_with_path(ensure_chunk_dim, ...)`. -/
def cacheOf (raw : PyDict) : PyDict :=
  raw.map (fun kv => (kv.1, ensure_chunk_dim kv.1 kv.2))

/-- Chunk size (action_chunk_broker.py, lines 103-107): the leading
dimension of the `actions` field, defaulting to 1 when the field is
missing or not an ndarray. -/
def chunkSize (d : PyDict) : Nat :=
  match d.lookup "actions" with
  | some (.nd a) => a.shape0
  | _ => 1

/-- The "safe index" `min(self._cur_step, x.shape[0] - 1)` used by the
slicer (lines 115 and 122). -/
def sliceIdx (cur n : Nat) : Nat := min cur (n - 1)

/-- The broker's `slicer` (action_chunk_broker.py, lines 110-128).
Rule A: any ndarray under a key containing "actions" is sliced at the
safe index.  Rule B: any other ndarray whose leading dimension equals
the chunk size and with more than one dimension is sliced the same way.
Rule C: everything else is passed through unchanged. -/
def slicer (cur cs : Nat) (path : String) (x : PyVal) : PyVal :=
  match x with
  | .nd a =>
      if containsSub path "actions" then .nd (a.index (sliceIdx cur a.shape0))
      else if a.shape0 == cs && a.ndim > 1 then .nd (a.index (sliceIdx cur a.shape0))
      else .nd a
  | v => v

/-- The broker's mutable state: `_last_results` and `_cur_step`. -/
structure BrokerState where
  lastResults : Option PyDict
  curStep : Nat
  deriving DecidableEq, Repr

/-- State at construction time / after `reset()`. -/
def initState : BrokerState := ⟨none, 0⟩

/-- What one `infer` call produces: the sliced per-step results, the
broker state it leaves behind, and whether the inner policy's `infer`
was invoked on this call. -/
structure InferOut where
  results : PyDict
  state : BrokerState
  invoked : Bool
  deriving DecidableEq, Repr

/-- The tail of `ActionChunkBroker.infer` after a cache `cache` with
cursor `cur` is in hand (lines 103-141): slice every field, bump the
cursor, and clear the cache when the new cursor reaches either the
action horizon or the chunk size. -/
def serve (H : Nat) (cache : PyDict) (cur : Nat) (inv : Bool) : InferOut :=
  { results := cache.map (fun kv => (kv.1, slicer cur (chunkSize cache) kv.1 kv.2))
    state :=
      { lastResults :=
          if cur + 1 ≥ H ∨ cur + 1 ≥ chunkSize cache then none else some cache
        curStep := cur + 1 }
    invoked := inv }

/-- `ActionChunkBroker.infer` (lines 82-141), for an inner policy whose
next result is `raw`: on a cleared cache, invoke the policy, normalize
dimensions and cache with cursor 0; otherwise serve from the cache. -/
def inferStep (raw : PyDict) (H : Nat) (s : BrokerState) : InferOut :=
  match s.lastResults with
  | none => serve H (cacheOf raw) 0 true
  | some c => serve H c s.curStep false

/-- `ActionChunkBroker.reset` (lines 143-147): drop the cache, zero the
cursor (the inner policy's own `reset` is a collaborator call). -/
def resetBroker (_s : BrokerState) : BrokerState := ⟨none, 0⟩

/-- `n` successive `infer` calls starting from state `s`, with an inner
policy that returns `raw` each time it is invoked; also counts how many
of those calls invoked the inner policy. -/
def iterBroker (raw : PyDict) (H : Nat) : Nat → BrokerState → BrokerState × Nat
  | 0, s => (s, 0)
  | n + 1, s =>
      ((iterBroker raw H n (inferStep raw H s).state).1,
       (if (inferStep raw H s).invoked then 1 else 0)
         + (iterBroker raw H n (inferStep raw H s).state).2)

/-! Frame translator, safety clamp and command paths
(`mkrobot/hardware/mk_driver.py`, `mkrobot/mk_controller.py`). -/

/-- `JOINT_LIMITS` (mk_driver.py, lines 23-26): closed per-joint position
intervals for the six arm joints. -/
def JOINT_LIMITS : Fin 6 → ℚ × ℚ := fun i =>
  match (i : Nat) with
  | 0 => (-3.0, 3.0)
  | 1 => (0.0, 3.0)
  | 2 => (0.0, 3.0)
  | 3 => (-1.7, 1.2)
  | 4 => (-0.4, 0.4)
  | _ => (-2.0, 2.0)

/-- `np.clip(x, lo, hi) = np.minimum(np.maximum(x, lo), hi)`. -/
def npClip (x lo hi : ℚ) : ℚ := min (max x lo) hi

/-- `MKRobotStandalone.check_joints_limit` (mk_driver.py, lines 262-275):
clip each of the six arm joints to its `JOINT_LIMITS` interval and the
gripper channel (index 6) to `[0, 1]`. -/
def check_joints_limit (a : Fin 7 → ℚ) : Fin 7 → ℚ := fun i =>
  if h : (i : Nat) < 6 then
    npClip (a i) (JOINT_LIMITS ⟨i, h⟩).1 (JOINT_LIMITS ⟨i, h⟩).2
  else
    npClip (a i) 0 1

/-- `HARDWARE_DIR` (mk_driver.py, line 65): the fixed per-joint sign
vector `[-1, 1, -1, -1, -1, -1, 1]`. -/
def HARDWARE_DIR : Fin 7 → ℚ := fun i =>
  match (i : Nat) with
  | 0 => -1.0
  | 1 => 1.0
  | 2 => -1.0
  | 3 => -1.0
  | 4 => -1.0
  | 5 => -1.0
  | _ => 1.0

/-- The observation-path frame translation (mk_driver.py, line 219):
`sim_state = physical_state * HARDWARE_DIR`. -/
def toPolicy (p : Fin 7 → ℚ) : Fin 7 → ℚ := fun i => p i * HARDWARE_DIR i

/-- The command-path frame translation (mk_driver.py, line 298):
`target_physical = action * HARDWARE_DIR`. -/
def toPhysical (a : Fin 7 → ℚ) : Fin 7 → ℚ := fun i => a i * HARDWARE_DIR i

/-- `MKRobotStandalone.send_action` (mk_driver.py, lines 277-313), as the
vector it hands to the low-level `_send_action`: translate the policy
action to the physical frame, then clamp (`safe_action_arr`). -/
def send_action (a : Fin 7 → ℚ) : Fin 7 → ℚ := check_joints_limit (toPhysical a)

/-- `MKController.apply_action` (mk_controller.py, lines 86-94) forwards
the action to `driver.send_action`. -/
def controller_apply_action (a : Fin 7 → ℚ) : Fin 7 → ℚ := send_action a

/-- One iteration of `MKController.perform_home_sequence`
(mk_controller.py, lines 73-79): `driver.send_action(np.zeros(7))`. -/
def home_sequence_step : Fin 7 → ℚ := send_action (fun _ => 0)

/-! Chunk-boundary interpolation and the new-chunk flag
(`mkrobot/env.py`). -/

/-- The command issued at sub-step `j` of
`MKRobotOpenPIEnv._run_interpolation` (env.py, lines 170-199):
`alpha = j / (steps + 1)`, arm joints (indices 0-5) linearly
interpolated, gripper (index 6) held at the start pose. -/
def interpCmd (startPose targetPose : Fin 7 → ℚ) (steps j : Nat) : Fin 7 → ℚ :=
  fun i =>
    if (i : Nat) < 6 then
      startPose i + (targetPose i - startPose i) * ((j : ℚ) / ((steps : ℚ) + 1))
    else startPose i

/-- The full interpolation sequence: `for j in range(1, steps + 1)`. -/
def run_interpolation (startPose targetPose : Fin 7 → ℚ) (steps : Nat) :
    List (Fin 7 → ℚ) :=
  (List.range steps).map (fun k => interpCmd startPose targetPose steps (k + 1))

/-- `action.get("is_new_chunk", True)` in `MKRobotOpenPIEnv.apply_action`
(env.py, line 222): `True` when the key is absent.  (A present non-bool
value goes through Python truthiness; the dicts of interest carry either
a bool or no such key.) -/
def is_new_chunk_flag (action : PyDict) : Bool :=
  match action.lookup "is_new_chunk" with
  | some (.bool b) => b
  | _ => true

/-- `should_interpolate` (env.py, line 229): interpolate exactly when the
flag reads true and a previous commanded action exists. -/
def should_interpolate (prevAction : Option NDArr) (action : PyDict) : Bool :=
  is_new_chunk_flag action && prevAction.isSome

/-- Every arm joint within its `JOINT_LIMITS` interval and the gripper
channel within `[0, 1]`. -/
def withinJointLimits (v : Fin 7 → ℚ) : Prop :=
  (∀ i : Fin 6, (JOINT_LIMITS i).1 ≤ v i.castSucc ∧ v i.castSucc ≤ (JOINT_LIMITS i).2) ∧
  0 ≤ v 6 ∧ v 6 ≤ 1

/-- The all-zero start pose of the interpolation-continuity example. -/
def c6start : Fin 7 → ℚ := fun _ => 0

/-- The target pose of the interpolation-continuity example: joint 0 at
0.6 rad, all other channels 0. -/
def c6target : Fin 7 → ℚ := fun i => if (i : Nat) = 0 then 0.6 else 0

section BrokerLemmas

variable (raw : PyDict) (H : Nat)

lemma inferStep_of_none (s : BrokerState) (hs : s.lastResults = none) :
    inferStep raw H s = serve H (cacheOf raw) 0 true := by
  unfold inferStep
  rw [hs]

lemma inferStep_of_some (c : PyDict) (k : Nat) :
    inferStep raw H ⟨some c, k⟩ = serve H c k false := rfl

lemma serve_invoked (c : PyDict) (cur : Nat) (b : Bool) :
    (serve H c cur b).invoked = b := rfl

lemma serve_clears (c : PyDict) (cur : Nat) (b : Bool)
    (h : min H (chunkSize c) ≤ cur + 1) :
    (serve H c cur b).state = ⟨none, cur + 1⟩ := by
  unfold serve
  rw [if_pos (min_le_iff.mp h)]

lemma serve_keeps (c : PyDict) (cur : Nat) (b : Bool)
    (h : cur + 1 < min H (chunkSize c)) :
    (serve H c cur b).state = ⟨some c, cur + 1⟩ := by
  unfold serve
  rw [if_neg]
  intro hor
  rcases hor with h2 | h2 <;> omega

/-- While the cursor stays below `min(horizon, chunk_size)`, calls are
served from the cache: no policy invocation, cursor advancing by one per
call, cache cleared exactly upon reaching the minimum. -/
lemma run_cached (c : PyDict) (j : Nat) :
    ∀ k : Nat, 1 ≤ k → k < min H (chunkSize c) → k + j ≤ min H (chunkSize c) →
      iterBroker raw H j ⟨some c, k⟩ =
        (⟨if min H (chunkSize c) ≤ k + j then none else some c, k + j⟩, 0) := by
  induction j with
  | zero =>
      intro k hk1 hkm _
      have hcond : ¬ min H (chunkSize c) ≤ k + 0 := by omega
      rw [if_neg hcond]
      rfl
  | succ j ih =>
      intro k hk1 hkm hkj
      have hstep : (inferStep raw H ⟨some c, k⟩) = serve H c k false :=
        inferStep_of_some raw H c k
      by_cases hclear : min H (chunkSize c) ≤ k + 1
      · -- the (k+1)-st cursor value reaches the minimum: j must be 0
        have hj0 : j = 0 := by omega
        subst hj0
        simp only [iterBroker, hstep, serve_invoked H c k false,
          serve_clears H c k false hclear]
        have hcond : min H (chunkSize c) ≤ k + (0 + 1) := by omega
        rw [if_pos hcond]
        rfl
      · have hlt : k + 1 < min H (chunkSize c) := by omega
        simp only [iterBroker, hstep, serve_invoked H c k false,
          serve_keeps H c k false hlt]
        rw [ih (k + 1) (by omega) hlt (by omega)]
        simp only [Prod.mk.injEq, BrokerState.mk.injEq]
        refine ⟨⟨?_, by omega⟩, rfl⟩
        rw [if_congr (by omega : min H (chunkSize c) ≤ k + 1 + j ↔
            min H (chunkSize c) ≤ k + (j + 1)) rfl rfl]

/-- From a cleared cache, a run of `1 ≤ j ≤ min(horizon, chunk_size)`
calls invokes the policy exactly once (on the first call); the cache is
cleared again exactly when `j` reaches the minimum. -/
lemma run_fresh (j : Nat) (hj1 : 1 ≤ j)
    (hjm : j ≤ min H (chunkSize (cacheOf raw)))
    (s : BrokerState) (hs : s.lastResults = none) :
    iterBroker raw H j s =
      (⟨if min H (chunkSize (cacheOf raw)) ≤ j then none
        else some (cacheOf raw), j⟩, 1) := by
  obtain ⟨jj, rfl⟩ : ∃ jj, j = jj + 1 := ⟨j - 1, by omega⟩
  have hstep := inferStep_of_none raw H s hs
  by_cases hclear : min H (chunkSize (cacheOf raw)) ≤ 0 + 1
  · -- min = 1, so the chunk is dropped right after the first call
    have hjj : jj = 0 := by omega
    subst hjj
    simp only [iterBroker, hstep, serve_invoked H _ 0 true,
      serve_clears H _ 0 true hclear]
    have hcond : min H (chunkSize (cacheOf raw)) ≤ 0 + 1 := by omega
    rw [if_pos hcond]
    rfl
  · have hlt : 0 + 1 < min H (chunkSize (cacheOf raw)) := by omega
    simp only [iterBroker, hstep, serve_invoked H _ 0 true,
      serve_keeps H _ 0 true hlt]
    rw [run_cached raw H (cacheOf raw) jj 1 (by omega) hlt (by omega)]
    simp only [Prod.mk.injEq, BrokerState.mk.injEq]
    refine ⟨⟨?_, by omega⟩, rfl⟩
    rw [if_congr (by omega : min H (chunkSize (cacheOf raw)) ≤ 1 + jj ↔
        min H (chunkSize (cacheOf raw)) ≤ jj + 1) rfl rfl]

lemma iter_add (a b : Nat) (s : BrokerState) :
    iterBroker raw H (a + b) s =
      ((iterBroker raw H b (iterBroker raw H a s).1).1,
       (iterBroker raw H a s).2 + (iterBroker raw H b (iterBroker raw H a s).1).2) := by
  induction a generalizing s with
  | zero => simp [iterBroker]
  | succ a ih =>
      have hn : a + 1 + b = (a + b) + 1 := by omega
      rw [hn]
      simp only [iterBroker]
      rw [ih]
      simp only [Prod.mk.injEq, true_and, and_true]
      omega

/-- Complete reuse cycles: `q * min(horizon, chunk_size)` calls from any
cleared-cache state make exactly `q` policy invocations and end with the
cache cleared again. -/
lemma run_cycles (hm : 1 ≤ min H (chunkSize (cacheOf raw))) (q : Nat) :
    ∀ s : BrokerState, s.lastResults = none →
      (iterBroker raw H (q * min H (chunkSize (cacheOf raw))) s).1.lastResults = none ∧
      (iterBroker raw H (q * min H (chunkSize (cacheOf raw))) s).2 = q := by
  induction q with
  | zero =>
      intro s hs
      rw [Nat.zero_mul]
      exact ⟨hs, rfl⟩
  | succ q ih =>
      intro s hs
      rw [Nat.succ_mul, iter_add]
      obtain ⟨ih1, ih2⟩ := ih s hs
      rw [run_fresh raw H (min H (chunkSize (cacheOf raw))) hm le_rfl _ ih1]
      refine ⟨?_, by omega⟩
      rw [if_pos le_rfl]

end BrokerLemmas

/-- C1: for a policy chunk of length `L` and action horizon `H ≥ 1`,
successive `infer` calls invoke the inner policy exactly once per
`min(L, H)` calls: writing the call count as `q * min(L,H) + r` with
`r < min(L,H)`, the first `q` full reuse windows cost one invocation
each (plus one for a started partial window), the cache is cleared
exactly when the cursor reaches the horizon or the chunk length (i.e.
at multiples of `min(L,H)`), and the call right after a cleared cache
re-invokes inference while a call served from the cache does not. -/
theorem c1_chunk_cache_reuse (raw : PyDict) (H L q r : Nat)
    (hH : 1 ≤ H) (hL : 1 ≤ L)
    (hsz : chunkSize (cacheOf raw) = L) (hr : r < min L H) :
    (iterBroker raw H (q * min L H + r) initState).2
        = q + (if r = 0 then 0 else 1) ∧
    ((iterBroker raw H (q * min L H + r) initState).1.lastResults = none ↔ r = 0) ∧
    (inferStep raw H (iterBroker raw H (q * min L H + r) initState).1).invoked
        = (r == 0) := by
  have hmm : min L H = min H (chunkSize (cacheOf raw)) := by
    rw [hsz, Nat.min_comm]
  rw [hmm] at hr ⊢
  have hm1 : 1 ≤ min H (chunkSize (cacheOf raw)) := by
    rw [hsz]
    omega
  rw [iter_add raw H (q * min H (chunkSize (cacheOf raw))) r initState]
  obtain ⟨hnone, hcnt⟩ := run_cycles raw H hm1 q initState rfl
  by_cases hr0 : r = 0
  · subst hr0
    simp only [iterBroker]
    rw [hcnt, inferStep_of_none raw H _ hnone, serve_invoked]
    exact ⟨by simp, by simp [hnone], rfl⟩
  · have hr1 : 1 ≤ r := by omega
    rw [run_fresh raw H r hr1 (by omega) _ hnone]
    have hcond : ¬ min H (chunkSize (cacheOf raw)) ≤ r := by omega
    rw [if_neg hcond, hcnt, if_neg hr0]
    obtain ⟨rr, rfl⟩ : ∃ rr, r = rr + 1 := ⟨r - 1, by omega⟩
    refine ⟨by omega, by simp, ?_⟩
    rw [inferStep_of_some raw H _ (rr + 1), serve_invoked]
    rfl

/-- Witness for C1 at a concrete run: chunk length 2, horizon 3, five
calls = two full windows of `min(2,3) = 2` plus one extra call: three
invocations, cache still holding the partial window, next call cached. -/
theorem c1_chunk_cache_reuse_check :
    (iterBroker [("actions", .nd ⟨[2, 1], [1, 2]⟩)] 3 (2 * min 2 3 + 1) initState).2
        = 2 + (if 1 = 0 then 0 else 1) ∧
    ((iterBroker [("actions", .nd ⟨[2, 1], [1, 2]⟩)] 3 (2 * min 2 3 + 1)
        initState).1.lastResults = none ↔ 1 = 0) ∧
    (inferStep [("actions", .nd ⟨[2, 1], [1, 2]⟩)] 3
        (iterBroker [("actions", .nd ⟨[2, 1], [1, 2]⟩)] 3 (2 * min 2 3 + 1)
          initState).1).invoked = (1 == 0) :=
  c1_chunk_cache_reuse [("actions", .nd ⟨[2, 1], [1, 2]⟩)] 3 2 2 1
    (by decide) (by decide) (by decide) (by decide)

/-- `tree.map_structure_with_path` over a flat dict rewrites each value
in place: looking up a key afterwards applies the per-field function to
the original value. -/
lemma lookup_map_apply (f : String → PyVal → PyVal) (d : PyDict) (k : String) :
    (d.map (fun kv => (kv.1, f kv.1 kv.2))).lookup k = (d.lookup k).map (f k) := by
  induction d with
  | nil => rfl
  | cons p d ih =>
      by_cases hb : k = p.1
      · subst hb
        simp [List.lookup]
      · have hb' : (k == p.1) = false := beq_eq_false_iff_ne.mpr hb
        simp [List.lookup, hb', ih]

lemma ensure_chunk_dim_nd (path : String) (a : NDArr) :
    ensure_chunk_dim path (.nd a)
      = if (a.ndim == 1 && containsSub path "actions") = true
        then .nd a.expandDim else .nd a := rfl

lemma slicer_nd (cur cs : Nat) (path : String) (a : NDArr) :
    slicer cur cs path (.nd a)
      = if containsSub path "actions" = true
        then .nd (a.index (sliceIdx cur a.shape0))
        else if (a.shape0 == cs && decide (a.ndim > 1)) = true
        then .nd (a.index (sliceIdx cur a.shape0))
        else .nd a := rfl

/-- C8: when the raw inferred `actions` has no leading chunk dimension
(a 1-D array), the broker synthesizes one before caching: the cached
`actions` is the 2-D length-1 chunk `x[None, ...]`, the chunk size is 1,
and consequently every call re-invokes inference (the cache never
survives a call). -/
theorem c8_synthesized_length_one_chunk (raw : PyDict) (H n : Nat) (a : NDArr)
    (ha : raw.lookup "actions" = some (.nd a)) (h1 : a.ndim = 1) (hH : 1 ≤ H) :
    (cacheOf raw).lookup "actions" = some (.nd a.expandDim) ∧
    a.expandDim.shape0 = 1 ∧ a.expandDim.ndim = 2 ∧
    chunkSize (cacheOf raw) = 1 ∧
    (iterBroker raw H n initState).2 = n ∧
    (iterBroker raw H n initState).1.lastResults = none := by
  have hself : containsSub "actions" "actions" = true := by decide
  have hcache : (cacheOf raw).lookup "actions" = some (.nd a.expandDim) := by
    unfold cacheOf
    rw [lookup_map_apply, ha, Option.map_some', ensure_chunk_dim_nd]
    have hcond : (a.ndim == 1 && containsSub "actions" "actions") = true := by
      rw [h1, hself]
      rfl
    rw [if_pos hcond]
  have hnd2 : a.expandDim.ndim = 2 := by
    unfold NDArr.expandDim NDArr.ndim at *
    simp [h1]
  have hcs : chunkSize (cacheOf raw) = 1 := by
    unfold chunkSize
    rw [hcache]
    rfl
  have hm : min H (chunkSize (cacheOf raw)) = 1 := by
    rw [hcs]
    omega
  obtain ⟨h1', h2'⟩ := run_cycles raw H (by omega) n initState rfl
  rw [hm, Nat.mul_one] at h1' h2'
  exact ⟨hcache, rfl, hnd2, hcs, h2', h1'⟩

/-- Witness for C8: a raw result whose `actions` is the 1-D array
`[3, 4]` is cached as the `(1, 2)` chunk `[[3, 4]]`, and three calls
make three inference invocations. -/
theorem c8_synthesized_length_one_chunk_check :
    (cacheOf [("actions", .nd ⟨[2], [3, 4]⟩)]).lookup "actions"
        = some (.nd (NDArr.expandDim ⟨[2], [3, 4]⟩)) ∧
    (NDArr.expandDim ⟨[2], [3, 4]⟩).shape0 = 1 ∧
    (NDArr.expandDim ⟨[2], [3, 4]⟩).ndim = 2 ∧
    chunkSize (cacheOf [("actions", .nd ⟨[2], [3, 4]⟩)]) = 1 ∧
    (iterBroker [("actions", .nd ⟨[2], [3, 4]⟩)] 30 3 initState).2 = 3 ∧
    (iterBroker [("actions", .nd ⟨[2], [3, 4]⟩)] 30 3 initState).1.lastResults
        = none :=
  c8_synthesized_length_one_chunk [("actions", .nd ⟨[2], [3, 4]⟩)] 30 3
    ⟨[2], [3, 4]⟩ (by decide) (by decide) (by decide)

/-- C10: the slicer's index is always `min(cursor, leading_dim - 1)`:
for a nonempty leading dimension it is in bounds, it degrades to the
last frame when the cursor is past the end, and the slicer either
passes an array through or extracts exactly that index — slicing is a
total function of the cached state. -/
theorem c10_slice_in_bounds (cur cs : Nat) (key : String) (a : NDArr)
    (h : 1 ≤ a.shape0) :
    sliceIdx cur a.shape0 < a.shape0 ∧
    (a.shape0 ≤ cur → sliceIdx cur a.shape0 = a.shape0 - 1) ∧
    (slicer cur cs key (.nd a) = .nd (a.index (sliceIdx cur a.shape0)) ∨
     slicer cur cs key (.nd a) = .nd a) := by
  refine ⟨by unfold sliceIdx; omega, fun hc => by unfold sliceIdx; omega, ?_⟩
  rw [slicer_nd]
  by_cases h1 : containsSub key "actions"
  · rw [if_pos h1]
    exact .inl rfl
  · rw [if_neg h1]
    by_cases h2 : (a.shape0 == cs && decide (a.ndim > 1)) = true
    · rw [if_pos h2]
      exact .inl rfl
    · rw [if_neg h2]
      exact .inr rfl

/-- Witness for C10: a `(2, 3)` array with the cursor already at 5 is
sliced at index `min(5, 1) = 1`, its last frame. -/
theorem c10_slice_in_bounds_check :
    sliceIdx 5 (NDArr.shape0 ⟨[2, 3], [0, 1, 2, 3, 4, 5]⟩)
        < NDArr.shape0 ⟨[2, 3], [0, 1, 2, 3, 4, 5]⟩ ∧
    (NDArr.shape0 ⟨[2, 3], [0, 1, 2, 3, 4, 5]⟩ ≤ 5 →
      sliceIdx 5 (NDArr.shape0 ⟨[2, 3], [0, 1, 2, 3, 4, 5]⟩)
        = NDArr.shape0 ⟨[2, 3], [0, 1, 2, 3, 4, 5]⟩ - 1) ∧
    (slicer 5 2 "actions" (.nd ⟨[2, 3], [0, 1, 2, 3, 4, 5]⟩)
        = .nd (NDArr.index ⟨[2, 3], [0, 1, 2, 3, 4, 5]⟩
            (sliceIdx 5 (NDArr.shape0 ⟨[2, 3], [0, 1, 2, 3, 4, 5]⟩))) ∨
     slicer 5 2 "actions" (.nd ⟨[2, 3], [0, 1, 2, 3, 4, 5]⟩)
        = .nd ⟨[2, 3], [0, 1, 2, 3, 4, 5]⟩) :=
  c10_slice_in_bounds 5 2 "actions" ⟨[2, 3], [0, 1, 2, 3, 4, 5]⟩ (by decide)

/-- C9: `reset()` leaves the broker with no cached chunk and cursor 0,
whatever state it was in (e.g. mid-playback at cursor 3 of a 10-frame
chunk), and the next `infer` call after a reset re-invokes the policy. -/
theorem c9_reset_unwind (s : BrokerState) (raw : PyDict) (H : Nat) :
    (resetBroker s).lastResults = none ∧ (resetBroker s).curStep = 0 ∧
    (inferStep raw H (resetBroker s)).invoked = true :=
  ⟨rfl, rfl, rfl⟩

/-- C2 (code bug evidence): on the second of two successive broker calls
for a cached 3-frame chunk (horizon 30) the broker serves from the cache
— the chunk is not new — yet its per-call result carries no
`is_new_chunk` field, so the actuation stage's flag defaults to true and
`should_interpolate` fires anyway once a previous commanded action
exists.  The broker never sets the flag that env.py's own comment says
it passes. -/
theorem c2_new_chunk_flag_never_passed :
    (inferStep [("actions", .nd ⟨[3, 1], [5, 6, 7]⟩)] 30
        ((inferStep [("actions", .nd ⟨[3, 1], [5, 6, 7]⟩)] 30 initState).state)).invoked
      = false ∧
    ((inferStep [("actions", .nd ⟨[3, 1], [5, 6, 7]⟩)] 30
        ((inferStep [("actions", .nd ⟨[3, 1], [5, 6, 7]⟩)] 30
          initState).state)).results).lookup "is_new_chunk" = none ∧
    should_interpolate (some ⟨[7], [0, 0, 0, 0, 0, 0, 0]⟩)
        ((inferStep [("actions", .nd ⟨[3, 1], [5, 6, 7]⟩)] 30
          ((inferStep [("actions", .nd ⟨[3, 1], [5, 6, 7]⟩)] 30
            initState).state)).results) = true := by
  decide

/-- C3 counterexample: in the raw result
`{"actions": ndarray[2,1], "xactions": ndarray[1,2]}` the field
`"xactions"` has leading dimension 1 ≠ chunk length 2 and more than one
dimension, so by the claim it must be passed through unchanged; the
first call instead returns it sliced at index 0 (its key contains the
substring "actions"). -/
theorem c3_pass_through_refuted :
    (inferStep [("actions", .nd ⟨[2, 1], [10, 11]⟩),
        ("xactions", .nd ⟨[1, 2], [20, 21]⟩)] 10 initState).results.lookup "xactions"
      = some (.nd ⟨[2], [20, 21]⟩) ∧
    (inferStep [("actions", .nd ⟨[2, 1], [10, 11]⟩),
        ("xactions", .nd ⟨[1, 2], [20, 21]⟩)] 10 initState).results.lookup "xactions"
      ≠ some (.nd ⟨[1, 2], [20, 21]⟩) := by
  decide

/-- C3 (amended): a call served from cache `c` at cursor `cur` slices an
array field exactly when its key contains the substring "actions" or its
leading dimension equals the chunk length with more than one dimension —
in either case at index `min(cursor, leading_dim - 1)`, identically to
the actions field — and passes every other field through, non-array
values (e.g. a scalar `meta`) unchanged on every call. -/
theorem c3_slicing_amended (raw c : PyDict) (H cur : Nat) (k k2 : String)
    (a : NDArr) (v : Int)
    (hk : c.lookup k = some (.nd a)) (hk2 : c.lookup k2 = some (.py v)) :
    (inferStep raw H ⟨some c, cur⟩).results.lookup k
      = some (if (containsSub k "actions"
                  || (a.shape0 == chunkSize c && decide (a.ndim > 1))) = true
              then .nd (a.index (sliceIdx cur a.shape0)) else .nd a) ∧
    (inferStep raw H ⟨some c, cur⟩).results.lookup k2 = some (.py v) := by
  constructor
  · show (c.map (fun kv => (kv.1, slicer cur (chunkSize c) kv.1 kv.2))).lookup k = _
    rw [lookup_map_apply, hk, Option.map_some', slicer_nd]
    by_cases h1 : containsSub k "actions" = true
    · rw [if_pos h1, if_pos (by rw [h1]; rfl)]
    · have h1' : containsSub k "actions" = false := by
        rwa [Bool.not_eq_true] at h1
      rw [if_neg h1]
      by_cases h2 : (a.shape0 == chunkSize c && decide (a.ndim > 1)) = true
      · rw [if_pos h2, if_pos (by rw [h1', h2]; rfl)]
      · rw [if_neg h2, if_neg]
        intro hcontra
        rcases (Bool.or_eq_true _ _).mp hcontra with hx | hx
        · exact h1 hx
        · exact h2 hx
  · show (c.map (fun kv => (kv.1, slicer cur (chunkSize c) kv.1 kv.2))).lookup k2 = _
    rw [lookup_map_apply, hk2, Option.map_some']
    rfl

/-- Raw result of the C3 example: `actions` of shape (5,7), `logits` of
shape (5,3), and a scalar `meta`. -/
def exampleChunk : PyDict :=
  [("actions", .nd ⟨[5, 7], (List.range 35).map Int.ofNat⟩),
   ("logits", .nd ⟨[5, 3], (List.range 15).map (fun n => 100 + Int.ofNat n)⟩),
   ("meta", .py 99)]

/-- Witness for the amended C3 at the claim's example: with the
(5,7)/(5,3)/scalar result cached and the cursor at 2, `logits` comes
back sliced at row 2 (in step with `actions`) and `meta` unchanged. -/
theorem c3_slicing_amended_check :
    (inferStep [] 25 ⟨some exampleChunk, 2⟩).results.lookup "logits"
      = some (if (containsSub "logits" "actions"
                  || ((NDArr.shape0 ⟨[5, 3], (List.range 15).map (fun n => 100 + Int.ofNat n)⟩)
                        == chunkSize exampleChunk
                      && decide ((NDArr.ndim ⟨[5, 3], (List.range 15).map (fun n => 100 + Int.ofNat n)⟩) > 1))) = true
              then .nd (NDArr.index ⟨[5, 3], (List.range 15).map (fun n => 100 + Int.ofNat n)⟩
                  (sliceIdx 2 (NDArr.shape0 ⟨[5, 3], (List.range 15).map (fun n => 100 + Int.ofNat n)⟩)))
              else .nd ⟨[5, 3], (List.range 15).map (fun n => 100 + Int.ofNat n)⟩) ∧
    (inferStep [] 25 ⟨some exampleChunk, 2⟩).results.lookup "meta" = some (.py 99) :=
  c3_slicing_amended [] exampleChunk 25 2 "logits" "meta"
    ⟨[5, 3], (List.range 15).map (fun n => 100 + Int.ofNat n)⟩ 99
    (by decide) (by decide)

section ClampLemmas

lemma npClip_le (x lo hi : ℚ) : npClip x lo hi ≤ hi := min_le_right _ _

lemma le_npClip (x lo hi : ℚ) (h : lo ≤ hi) : lo ≤ npClip x lo hi :=
  le_min (le_max_right x lo) h

lemma npClip_idem (x lo hi : ℚ) (h : lo ≤ hi) :
    npClip (npClip x lo hi) lo hi = npClip x lo hi := by
  unfold npClip
  rw [max_eq_left (le_min (le_max_right x lo) h), min_eq_left (min_le_right _ _)]

lemma limits_lo_le_hi (i : Fin 6) : (JOINT_LIMITS i).1 ≤ (JOINT_LIMITS i).2 := by
  fin_cases i <;> norm_num [JOINT_LIMITS]

lemma check_joints_limit_lt (x : Fin 7 → ℚ) (i : Fin 7) (h : (i : Nat) < 6) :
    check_joints_limit x i
      = npClip (x i) (JOINT_LIMITS ⟨i, h⟩).1 (JOINT_LIMITS ⟨i, h⟩).2 := by
  unfold check_joints_limit
  rw [dif_pos h]

lemma check_joints_limit_ge (x : Fin 7 → ℚ) (i : Fin 7) (h : ¬ (i : Nat) < 6) :
    check_joints_limit x i = npClip (x i) 0 1 := by
  unfold check_joints_limit
  rw [dif_neg h]

lemma castSucc_lt_six (i : Fin 6) : ((i.castSucc : Fin 7) : Nat) < 6 := by
  simp

lemma castSucc_roundtrip (i : Fin 6) :
    (⟨((i.castSucc : Fin 7) : Nat), castSucc_lt_six i⟩ : Fin 6) = i := by
  ext
  simp

lemma six_not_lt_six : ¬ (((6 : Fin 7) : Nat) < 6) := by decide

lemma check_joints_limit_within (x : Fin 7 → ℚ) :
    withinJointLimits (check_joints_limit x) := by
  refine ⟨fun i => ?_, ?_, ?_⟩
  · rw [check_joints_limit_lt x i.castSucc (castSucc_lt_six i), castSucc_roundtrip i]
    exact ⟨le_npClip _ _ _ (limits_lo_le_hi i), npClip_le _ _ _⟩
  · rw [check_joints_limit_ge x 6 six_not_lt_six]
    exact le_npClip _ _ _ zero_le_one
  · rw [check_joints_limit_ge x 6 six_not_lt_six]
    exact npClip_le _ _ _

end ClampLemmas

/-- C4: the safety clamp is idempotent and bounding — for every input
vector, `clamp(clamp(x)) = clamp(x)`, each arm joint of `clamp(x)` lies
in its `JOINT_LIMITS` closed interval, and the gripper channel of
`clamp(x)` lies in `[0, 1]`, whatever the input values. -/
theorem c4_clamp_idempotent_and_bounding (x : Fin 7 → ℚ) :
    check_joints_limit (check_joints_limit x) = check_joints_limit x ∧
    (∀ i : Fin 6, (JOINT_LIMITS i).1 ≤ check_joints_limit x i.castSucc ∧
        check_joints_limit x i.castSucc ≤ (JOINT_LIMITS i).2) ∧
    0 ≤ check_joints_limit x 6 ∧ check_joints_limit x 6 ≤ 1 := by
  refine ⟨?_, check_joints_limit_within x⟩
  funext i
  by_cases h : (i : Nat) < 6
  · rw [check_joints_limit_lt _ i h, check_joints_limit_lt x i h,
      npClip_idem _ _ _ (limits_lo_le_hi ⟨i, h⟩)]
  · rw [check_joints_limit_ge _ i h, check_joints_limit_ge x i h,
      npClip_idem _ _ _ zero_le_one]

/-- C5: the frame translation round-trips — multiplying a physical
reading by the sign vector (observation path) and multiplying back
(command path) restores it exactly, since every `HARDWARE_DIR` entry is
±1. -/
theorem c5_translator_round_trip (p : Fin 7 → ℚ) :
    toPhysical (toPolicy p) = p := by
  have hdir : ∀ i : Fin 7, HARDWARE_DIR i * HARDWARE_DIR i = 1 := by
    intro i
    fin_cases i <;> norm_num [HARDWARE_DIR]
  funext i
  unfold toPhysical toPolicy
  rw [mul_assoc, hdir i, mul_one]

lemma run_interpolation_getD (s t : Fin 7 → ℚ) (steps k : Nat) (hk : k < steps) :
    (run_interpolation s t steps).getD k (fun _ => 0)
      = interpCmd s t steps (k + 1) := by
  unfold run_interpolation
  rw [List.getD_eq_getElem _ _ (by simpa using hk)]
  simp

/-- C6: for every start pose, target pose and sub-step `k < steps`, the
k-th generated command equals
`start + (target - start) * ((k+1)/(steps+1))` on every arm joint and
holds the gripper at the start pose's gripper value; and at the claim's
instance (start all-zero, target 0.6 on joint 0, 15 sub-steps) the
commanded joint-0 values strictly increase from `0.6/16` to
`0.6*15/16` while the gripper channel is constant at the start value on
all 15 sub-steps. -/
theorem c6_interpolation_sequence (s t : Fin 7 → ℚ) (steps k : Nat) (i : Fin 6)
    (hk : k < steps) :
    (run_interpolation s t steps).getD k (fun _ => 0) i.castSucc
      = s i.castSucc + (t i.castSucc - s i.castSucc)
          * (((k : ℚ) + 1) / ((steps : ℚ) + 1)) ∧
    (run_interpolation s t steps).getD k (fun _ => 0) 6 = s 6 ∧
    List.Chain' (· < ·)
      ((run_interpolation c6start c6target 15).map (fun c => c 0)) ∧
    ((run_interpolation c6start c6target 15).map (fun c => c 0)).headD 0
      = 0.6 / 16 ∧
    ((run_interpolation c6start c6target 15).map (fun c => c 0)).getLastD 0
      = 0.6 * 15 / 16 ∧
    ((run_interpolation c6start c6target 15).map (fun c => c 6))
      = List.replicate 15 (c6start 6) := by
  have hr : List.range 15 = [0, 1, 2, 3, 4, 5, 6, 7, 8, 9, 10, 11, 12, 13, 14] := by
    decide
  refine ⟨?_, ?_, ?_, ?_, ?_, ?_⟩
  · rw [run_interpolation_getD s t steps k hk]
    unfold interpCmd
    rw [if_pos (castSucc_lt_six i)]
    push_cast
    ring
  · rw [run_interpolation_getD s t steps k hk]
    unfold interpCmd
    rw [if_neg six_not_lt_six]
  · unfold run_interpolation
    rw [hr]
    simp only [List.map_cons, List.map_nil, List.chain'_cons, List.chain'_singleton]
    norm_num [interpCmd, c6start, c6target]
  · unfold run_interpolation
    rw [hr]
    simp only [List.map_cons, List.map_nil, List.headD_cons]
    norm_num [interpCmd, c6start, c6target]
  · unfold run_interpolation
    rw [hr]
    simp only [List.map_cons, List.map_nil, List.getLastD_cons, List.getLastD_nil]
    norm_num [interpCmd, c6start, c6target]
  · unfold run_interpolation
    rw [hr]
    simp [interpCmd, List.replicate, six_not_lt_six]

/-- Witness for C6 at the continuity example's last sub-step: target 0.6
on joint 0 from an all-zero start over 15 sub-steps, the fifteenth
command's joint 0 equals `0 + (0.6 - 0) * (15/16)`, its gripper stays at
the start value, the joint-0 trace strictly increases from `0.6/16` to
`0.6*15/16`, and the gripper trace is constant. -/
theorem c6_interpolation_sequence_check :
    (run_interpolation c6start c6target 15).getD 14 (fun _ => 0) (Fin.castSucc 0)
      = c6start (Fin.castSucc 0)
        + (c6target (Fin.castSucc 0) - c6start (Fin.castSucc 0))
          * (((14 : ℚ) + 1) / ((15 : ℚ) + 1)) ∧
    (run_interpolation c6start c6target 15).getD 14 (fun _ => 0) 6 = c6start 6 ∧
    List.Chain' (· < ·)
      ((run_interpolation c6start c6target 15).map (fun c => c 0)) ∧
    ((run_interpolation c6start c6target 15).map (fun c => c 0)).headD 0
      = 0.6 / 16 ∧
    ((run_interpolation c6start c6target 15).map (fun c => c 0)).getLastD 0
      = 0.6 * 15 / 16 ∧
    ((run_interpolation c6start c6target 15).map (fun c => c 6))
      = List.replicate 15 (c6start 6) :=
  c6_interpolation_sequence c6start c6target 15 14 0 (by decide)

/-- C7: the safety clamp is the last transform before the low-level
send: the vector `send_action` hands to `_send_action` is exactly the
clamp of the frame-translated command, and every upstream path — the
controller's `apply_action` forward, each home-sequence iteration, and
every interpolated sub-step command — reaches the hardware with all six
arm joints inside `JOINT_LIMITS` and the gripper inside `[0, 1]`. -/
theorem c7_every_send_clamped (a s t : Fin 7 → ℚ) (steps j : Nat) :
    send_action a = check_joints_limit (toPhysical a) ∧
    withinJointLimits (controller_apply_action a) ∧
    withinJointLimits home_sequence_step ∧
    withinJointLimits (send_action (interpCmd s t steps j)) :=
  ⟨rfl, check_joints_limit_within _, check_joints_limit_within _,
    check_joints_limit_within _⟩

end OpenPI
